import Mathlib

/-!
# Verification of the prototype content-addressed object store

A shallow embedding of the core of the `dmv-test-code` prototype (a Git-like
content-addressed object store with a rolling-hash chunker), together with
proofs about the embedded operations.

Conventions of the embedding:

* Machine bytes are `Nat` values (< 256 for every byte the code itself
  produces); `u64` writes truncate explicitly via fixed-width big-endian
  encoding.
* Rust `Result` becomes `Except`, a Rust panic becomes `Option.none`.
* Writers are byte lists; a `HashWriter` accumulates the bytes passed
  through it.
* The object store's `store_object` is modelled as a log of the objects
  passed to it (on disk the write is idempotent per hash; the log records
  the sequence of store calls an operation makes).
* Some support modules of the repository (`dag/mod.rs`, `rolling_hash.rs`,
  `object_store.rs`, `walker.rs`, `status.rs`) are not present under `src/`;
  definitions translated from their specified behaviour are marked
  `Modelled from the spec:` in their doc comment.
-/

namespace Proto

/-- A machine byte, kept as a `Nat`. -/
abbrev Byte := Nat

/-- `KEY_SIZE_BYTES` from the dag module: hashes are 20 bytes wide. -/
def KEY_SIZE_BYTES : Nat := 20

/-- The number of distinct 20-byte hashes. -/
def KEYSPACE : Nat := 2 ^ 160

/-- Modelled from the spec: `ObjectKey` is 20 opaque bytes; modelled as the
natural number those 20 bytes denote in big-endian. -/
def ObjectKey := Fin KEYSPACE
deriving DecidableEq, Repr

/-- The reserved zero hash ("no object"). -/
def ObjectKey.zero : ObjectKey := ⟨0, by norm_num [KEYSPACE]⟩

/-- Big-endian fixed-width byte encoding of a natural number:
`beBytes w n` is `n` written in `w` bytes, most significant first
(higher bits are truncated, as a Rust integer cast does). -/
def beBytes : Nat → Nat → List Byte
  | 0, _ => []
  | w + 1, n => beBytes w (n / 256) ++ [n % 256]

/-- Big-endian value of a byte list. -/
def fromBE (l : List Byte) : Nat := l.foldl (fun a b => 256 * a + b) 0

theorem beBytes_length (w n : Nat) : (beBytes w n).length = w := by
  induction w generalizing n with
  | zero => rfl
  | succ w ih => simp [beBytes, ih]

theorem foldl_beBytes (w n a : Nat) :
    (beBytes w n).foldl (fun a b => 256 * a + b) a = a * 256 ^ w + n % 256 ^ w := by
  induction w generalizing n a with
  | zero => simp [beBytes, Nat.mod_one]
  | succ w ih =>
    simp only [beBytes, List.foldl_append, List.foldl_cons, List.foldl_nil, ih]
    have hmul : (256 : Nat) ^ (w + 1) = 256 * 256 ^ w := by ring
    rw [hmul, Nat.mod_mul]
    ring

theorem fromBE_beBytes_mod (w n : Nat) :
    fromBE (beBytes w n) = n % 256 ^ w := by
  rw [fromBE, foldl_beBytes]
  simp

theorem fromBE_beBytes (w n : Nat) (h : n < 256 ^ w) :
    fromBE (beBytes w n) = n := by
  rw [fromBE_beBytes_mod, Nat.mod_eq_of_lt h]

/-- The 20 bytes of an `ObjectKey`, most significant first. -/
def keyBytes (k : ObjectKey) : List Byte := beBytes 20 k.val

theorem keyBytes_length (k : ObjectKey) : (keyBytes k).length = 20 :=
  beBytes_length 20 k.val

theorem fromBE_keyBytes (k : ObjectKey) : fromBE (keyBytes k) = k.val := by
  apply fromBE_beBytes
  have h := k.isLt
  have he : (256 : Nat) ^ 20 = KEYSPACE := by norm_num [KEYSPACE]
  rw [he]
  exact h

/-- Modelled from the spec: the 20-byte content hash.  The spec fixes only
that it is a deterministic function of the byte stream with 160-bit output
(the system never relies on the algorithm itself), so it is modelled as an
unspecified deterministic fold into the key space. -/
def hashBytes (l : List Byte) : ObjectKey :=
  ⟨l.foldl (fun a b => (a * 8191 + b + 1) % KEYSPACE) 5381 % KEYSPACE,
   Nat.mod_lt _ (by norm_num [KEYSPACE])⟩

/-- The four object types of the DAG. -/
inductive ObjectType where
  | blob
  | chunkedBlob
  | tree
  | commit
deriving DecidableEq, Repr

/-- Modelled from the spec: the wire tag of each object type
(`1=Blob, 2=ChunkedBlob, 3=Tree, 4=Commit`). -/
def ObjectType.typeByte : ObjectType → Byte
  | .blob => 1
  | .chunkedBlob => 2
  | .tree => 3
  | .commit => 4

/-- The header every stored object begins with. -/
structure ObjectHeader where
  object_type : ObjectType
  content_size : Nat
deriving DecidableEq, Repr

/-- Modelled from the spec: header wire format,
`object_type (u8) || content_size (u64, big-endian)`
(`ObjectHeader::write_to` lives in the dag module absent from `src/`). -/
def ObjectHeader.bytes (h : ObjectHeader) : List Byte :=
  h.object_type.typeByte :: beBytes 8 h.content_size

/-- A writer that both forwards bytes and folds them into a hash.
The model records the bytes passed through; `hash` is the hash of exactly
those bytes. -/
structure HashWriter where
  out : List Byte
deriving DecidableEq, Repr

/-- Wrap an (empty) underlying writer. -/
def HashWriter.wrap : HashWriter := ⟨[]⟩

/-- Pass bytes through the writer. -/
def HashWriter.write (w : HashWriter) (bs : List Byte) : HashWriter :=
  ⟨w.out ++ bs⟩

/-- Finalize the incremental hash. -/
def HashWriter.hash (w : HashWriter) : ObjectKey := hashBytes w.out

/-- Write the header through a writer (dag module; encoding from the spec). -/
def ObjectHeader.write_to (h : ObjectHeader) (w : HashWriter) : HashWriter :=
  w.write h.bytes

/-- `Blob`: a byte sequence stored in the DAG (`dag/blob.rs`). -/
structure Blob where
  content : List Byte
deriving DecidableEq, Repr

/-- `Blob::size` (`dag/blob.rs`). -/
def Blob.size (b : Blob) : Nat := b.content.length

/-- `Blob::write_to` (`dag/blob.rs`): wrap the writer in a `HashWriter`,
write the header, write the content, and return the accumulated hash.
The result is the pair (bytes written to the underlying writer, returned
`ObjectKey`). -/
def Blob.write_to (b : Blob) : List Byte × ObjectKey :=
  let w := HashWriter.wrap
  let header := ObjectHeader.mk ObjectType.blob b.content.length
  let w := header.write_to w
  let w := w.write b.content
  (w.out, w.hash)

/-- Claim C5: writing a `Blob` emits exactly the header (Blob type byte `1`,
then the content length as a big-endian `u64`) followed by the raw content,
and the returned `ObjectKey` is the hash of exactly that concatenated
header-plus-content stream. -/
theorem blob_write_to_bytes_and_hash (b : Blob) :
    (b.write_to).1 = 1 :: beBytes 8 b.content.length ++ b.content ∧
    (b.write_to).2 = hashBytes (1 :: beBytes 8 b.content.length ++ b.content) ∧
    fromBE (beBytes 8 b.content.length) = b.content.length % 2 ^ 64 := by
  refine ⟨?_, ?_, ?_⟩
  · simp [Blob.write_to, ObjectHeader.write_to, HashWriter.wrap, HashWriter.write,
      ObjectHeader.bytes, ObjectType.typeByte]
  · simp [Blob.write_to, ObjectHeader.write_to, HashWriter.wrap, HashWriter.write,
      HashWriter.hash, ObjectHeader.bytes, ObjectType.typeByte]
  · rw [fromBE_beBytes_mod]
    norm_num

/-! ## File names and UTF-8 validity -/

/-- A file name, as the byte sequence of the underlying `OsString`.
Rust compares `OsString`s byte-wise, which is the lexicographic order on
`List Nat`. -/
abbrev Name := List Byte

/-- Is `b` a UTF-8 continuation byte (`0x80..=0xBF`)? -/
def isCont (b : Byte) : Bool := decide (128 ≤ b ∧ b ≤ 191)

/-- UTF-8 validity of a byte sequence, as checked by `str::from_utf8` /
`OsStr::to_str` (RFC 3629: no surrogates, no overlong forms, max U+10FFFF).
This models the host language's UTF-8 check, which the source calls. -/
def utf8Valid : List Byte → Bool
  | [] => true
  | b :: rest =>
    if b ≤ 127 then utf8Valid rest
    else if 194 ≤ b ∧ b ≤ 223 then
      match rest with
      | c1 :: rest2 => isCont c1 && utf8Valid rest2
      | [] => false
    else if b = 224 then
      match rest with
      | c1 :: c2 :: rest3 =>
        decide (160 ≤ c1 ∧ c1 ≤ 191) && isCont c2 && utf8Valid rest3
      | _ => false
    else if (225 ≤ b ∧ b ≤ 236) ∨ b = 238 ∨ b = 239 then
      match rest with
      | c1 :: c2 :: rest3 => isCont c1 && isCont c2 && utf8Valid rest3
      | _ => false
    else if b = 237 then
      match rest with
      | c1 :: c2 :: rest3 =>
        decide (128 ≤ c1 ∧ c1 ≤ 159) && isCont c2 && utf8Valid rest3
      | _ => false
    else if b = 240 then
      match rest with
      | c1 :: c2 :: c3 :: rest4 =>
        decide (144 ≤ c1 ∧ c1 ≤ 191) && isCont c2 && isCont c3 && utf8Valid rest4
      | _ => false
    else if 241 ≤ b ∧ b ≤ 243 then
      match rest with
      | c1 :: c2 :: c3 :: rest4 =>
        isCont c1 && isCont c2 && isCont c3 && utf8Valid rest4
      | _ => false
    else if b = 244 then
      match rest with
      | c1 :: c2 :: c3 :: rest4 =>
        decide (128 ≤ c1 ∧ c1 ≤ 143) && isCont c2 && isCont c3 && utf8Valid rest4
      | _ => false
    else false

/-! ## Tree (`dag/tree.rs`) -/

/-- `Tree`: DAG object representing a directory, a `BTreeMap` from name to
hash.  Modelled as the map's entry list in ascending key order; `insert`
below maintains that order exactly as the `BTreeMap` does. -/
structure Tree where
  entries : List (Name × ObjectKey)
deriving DecidableEq, Repr

/-- `Tree::new`. -/
def Tree.new : Tree := ⟨[]⟩

/-- Ordered insert-or-replace into the entry list, the `BTreeMap::insert`
of the name's byte-wise order. -/
def insertEntry (n : Name) (k : ObjectKey) : List (Name × ObjectKey) →
    List (Name × ObjectKey)
  | [] => [(n, k)]
  | (m, v) :: rest =>
    if n < m then (n, k) :: (m, v) :: rest
    else if m < n then (m, v) :: insertEntry n k rest
    else (n, k) :: rest

/-- `Tree::insert`. -/
def Tree.insert (t : Tree) (n : Name) (k : ObjectKey) : Tree :=
  ⟨insertEntry n k t.entries⟩

/-- `TREE_ENTRY_SEPARATOR`. -/
def TREE_ENTRY_SEPARATOR : Byte := 10

/-- Serialization of the entry list: for each entry, the 20 hash bytes, the
name bytes (`to_str().unwrap()`, whose panic on a non-UTF-8 name is the
`none` result), then the separator byte. -/
def writeEntries : List (Name × ObjectKey) → Option (List Byte)
  | [] => some []
  | (n, k) :: rest =>
    if utf8Valid n then
      (writeEntries rest).map (fun bs => keyBytes k ++ n ++ TREE_ENTRY_SEPARATOR :: bs)
    else none

/-- `Tree::write_content` (`dag/tree.rs`): emit each entry in map order;
`none` models the `to_str().unwrap()` panic on a non-UTF-8 name. -/
def Tree.write_content (t : Tree) : Option (List Byte) := writeEntries t.entries

/-- One step of `Tree::read_content`'s hash read: `read` fills at most 20
bytes of the zeroed buffer. -/
def keyOfStream (bytes : List Byte) : ObjectKey :=
  ⟨fromBE ((bytes.take 20) ++ List.replicate (20 - (bytes.take 20).length) 0) % KEYSPACE,
   Nat.mod_lt _ (by norm_num [KEYSPACE])⟩

/-- The loop of `Tree::read_content` (`dag/tree.rs`): read 20 hash bytes
(stop at EOF), `read_until` the separator, `pop` the final byte, validate
UTF-8 (`String::from_utf8`, whose failure propagates as an error), insert,
repeat. -/
def readEntriesAux (bytes : List Byte) (t : Tree) : Except Unit Tree :=
  if bytes.isEmpty then .ok t
  else
    let key := keyOfStream bytes
    let rest := bytes.drop 20
    let name := if TREE_ENTRY_SEPARATOR ∈ rest
      then rest.takeWhile (· ≠ TREE_ENTRY_SEPARATOR)
      else rest.dropLast
    let remaining := if TREE_ENTRY_SEPARATOR ∈ rest
      then rest.drop (name.length + 1)
      else []
    if utf8Valid name then readEntriesAux remaining (t.insert name key)
    else .error ()
termination_by bytes.length
decreasing_by
  rename_i hne _
  have h2 : 0 < bytes.length := by
    cases bytes with
    | nil => simp at hne
    | cons a l => simp
  split
  · simp only [List.length_drop]
    omega
  · simpa using h2

/-- `Tree::read_content` (`dag/tree.rs`). -/
def Tree.read_content (bytes : List Byte) : Except Unit Tree :=
  readEntriesAux bytes Tree.new

/-- Entry lists in strictly ascending byte-wise name order — the invariant
of the `BTreeMap` backing a `Tree`. -/
def sortedNames (l : List (Name × ObjectKey)) : Prop :=
  l.Pairwise (fun a b => a.1 < b.1)

instance (l : List (Name × ObjectKey)) : Decidable (sortedNames l) := by
  unfold sortedNames
  infer_instance

/-- A `Tree` built by a sequence of `Tree::insert` calls, in call order. -/
def Tree.ofInserts (l : List (Name × ObjectKey)) : Tree :=
  l.foldl (fun t e => t.insert e.1 e.2) Tree.new

/-- The byte stream `Tree::write_content` produces when every name is
valid (each entry: 20 hash bytes, name bytes, separator). -/
def flattenEntries (l : List (Name × ObjectKey)) : List Byte :=
  l.foldr (fun e bs => keyBytes e.2 ++ e.1 ++ TREE_ENTRY_SEPARATOR :: bs) []

theorem mem_insertEntry {e : Name × ObjectKey} {n k} {l : List (Name × ObjectKey)}
    (h : e ∈ insertEntry n k l) : e = (n, k) ∨ e ∈ l := by
  induction l with
  | nil => simpa [insertEntry] using h
  | cons hd tl ih =>
    by_cases h1 : n < hd.1
    · simp only [insertEntry, if_pos h1, List.mem_cons] at h
      rcases h with h | h | h
      · exact Or.inl h
      · exact Or.inr (by simp [h])
      · exact Or.inr (by simp [h])
    · by_cases h2 : hd.1 < n
      · simp only [insertEntry, if_neg h1, if_pos h2, List.mem_cons] at h
        rcases h with h | h
        · exact Or.inr (by simp [h])
        · rcases ih h with h | h
          · exact Or.inl h
          · exact Or.inr (by simp [h])
      · simp only [insertEntry, if_neg h1, if_neg h2, List.mem_cons] at h
        rcases h with h | h
        · exact Or.inl h
        · exact Or.inr (by simp [h])

theorem insertEntry_append_of_gt {n : Name} {k : ObjectKey}
    {l : List (Name × ObjectKey)} (h : ∀ e ∈ l, e.1 < n) :
    insertEntry n k l = l ++ [(n, k)] := by
  induction l with
  | nil => simp [insertEntry]
  | cons hd tl ih =>
    have hhd : hd.1 < n := h hd (by simp)
    have h1 : ¬ n < hd.1 := lt_asymm hhd
    simp only [insertEntry, if_neg h1, if_pos hhd, List.cons_append, List.cons.injEq, true_and]
    exact ih (fun e he => h e (by simp [he]))

theorem sortedNames_insertEntry {n : Name} {k : ObjectKey}
    {l : List (Name × ObjectKey)} (h : sortedNames l) :
    sortedNames (insertEntry n k l) := by
  induction l with
  | nil => simp [insertEntry, sortedNames]
  | cons hd tl ih =>
    rw [sortedNames, List.pairwise_cons] at h
    obtain ⟨hall, htl⟩ := h
    by_cases h1 : n < hd.1
    · simp only [insertEntry, if_pos h1]
      rw [sortedNames, List.pairwise_cons]
      refine ⟨?_, ?_⟩
      · intro e he
        rcases List.mem_cons.mp he with he | he
        · simpa [he] using h1
        · exact lt_trans h1 (hall e he)
      · rw [sortedNames] at *
        exact List.Pairwise.cons hall htl
    · by_cases h2 : hd.1 < n
      · simp only [insertEntry, if_neg h1, if_pos h2]
        rw [sortedNames, List.pairwise_cons]
        refine ⟨?_, ih htl⟩
        intro e he
        rcases mem_insertEntry he with he | he
        · simpa [he] using h2
        · exact hall e he
      · have heq : hd.1 = n := le_antisymm (le_of_not_lt h1) (le_of_not_lt h2)
        simp only [insertEntry, if_neg h1, if_neg h2]
        rw [sortedNames, List.pairwise_cons]
        refine ⟨?_, htl⟩
        intro e he
        rw [← heq]
        exact hall e he

theorem sortedNames_ofInserts_aux (l : List (Name × ObjectKey)) (t : Tree)
    (h : sortedNames t.entries) :
    sortedNames (l.foldl (fun t e => t.insert e.1 e.2) t).entries := by
  induction l generalizing t with
  | nil => simpa using h
  | cons hd tl ih =>
    simp only [List.foldl_cons]
    exact ih _ (sortedNames_insertEntry h)

/-- Claim C7: however a `Tree` is built up by `insert` calls, the entry
sequence that `write_content` emits (the map's entry list, in emission
order) has strictly ascending byte-wise names, each name occurring at most
once. -/
theorem tree_entries_emitted_ascending (inserts : List (Name × ObjectKey)) :
    ((Tree.ofInserts inserts).entries.map Prod.fst).Pairwise (· < ·) ∧
    ((Tree.ofInserts inserts).entries.map Prod.fst).Nodup := by
  have hs : sortedNames (Tree.ofInserts inserts).entries := by
    apply sortedNames_ofInserts_aux
    simp [Tree.new, sortedNames]
  constructor
  · rw [List.pairwise_map]
    exact hs
  · rw [List.nodup_iff_sublist]
    intro a hsub
    have : ((Tree.ofInserts inserts).entries.map Prod.fst).Pairwise (· < ·) := by
      rw [List.pairwise_map]
      exact hs
    have h2 := List.Pairwise.sublist hsub this
    rw [List.pairwise_cons] at h2
    exact lt_irrefl a (h2.1 a (by simp))

theorem writeEntries_eq_flatten {l : List (Name × ObjectKey)}
    (h : ∀ e ∈ l, utf8Valid e.1 = true) :
    writeEntries l = some (flattenEntries l) := by
  induction l with
  | nil => simp [writeEntries, flattenEntries]
  | cons hd tl ih =>
    obtain ⟨n, k⟩ := hd
    have hv : utf8Valid n = true := h (n, k) (by simp)
    have ihl := ih (fun e he => h e (List.mem_cons_of_mem _ he))
    rw [writeEntries, if_pos hv, ihl]
    simp [flattenEntries]

theorem takeWhile_ne_append {n l : List Byte} (h : ∀ x ∈ n, x ≠ TREE_ENTRY_SEPARATOR) :
    (n ++ TREE_ENTRY_SEPARATOR :: l).takeWhile (· ≠ TREE_ENTRY_SEPARATOR) = n := by
  induction n with
  | nil => simp [List.takeWhile]
  | cons a tl ih =>
    have ha : a ≠ TREE_ENTRY_SEPARATOR := h a (by simp)
    simp only [List.cons_append, List.takeWhile_cons]
    rw [if_pos (by simpa using ha), ih (fun x hx => h x (by simp [hx]))]

theorem keyOfStream_keyBytes (k : ObjectKey) (rest : List Byte) :
    keyOfStream (keyBytes k ++ rest) = k := by
  have htake : (keyBytes k ++ rest).take 20 = keyBytes k := by
    conv_lhs => rw [← keyBytes_length k]
    exact List.take_left _ _
  apply Fin.ext
  show fromBE (((keyBytes k ++ rest).take 20) ++
      List.replicate (20 - ((keyBytes k ++ rest).take 20).length) 0) % KEYSPACE = k.val
  rw [htake, keyBytes_length]
  simp only [Nat.sub_self, List.replicate_zero, List.append_nil]
  rw [fromBE_keyBytes]
  exact Nat.mod_eq_of_lt k.isLt

theorem flattenEntries_nonempty (e : Name × ObjectKey) (l : List (Name × ObjectKey)) :
    (flattenEntries (e :: l)).isEmpty = false := by
  simp only [flattenEntries, List.foldr_cons]
  have h20 := keyBytes_length e.2
  cases hk : keyBytes e.2 with
  | nil => rw [hk] at h20; simp at h20
  | cons a tl => simp

theorem readEntriesAux_flatten (l : List (Name × ObjectKey)) (t0 : Tree)
    (hvalid : ∀ e ∈ l, utf8Valid e.1 = true ∧ TREE_ENTRY_SEPARATOR ∉ e.1)
    (hsorted : sortedNames (t0.entries ++ l)) :
    readEntriesAux (flattenEntries l) t0 = .ok ⟨t0.entries ++ l⟩ := by
  induction l generalizing t0 with
  | nil =>
    rw [readEntriesAux]
    simp [flattenEntries]
  | cons hd tl ih =>
    obtain ⟨n, k⟩ := hd
    have hv : utf8Valid n = true := (hvalid (n, k) (by simp)).1
    have hnosep : TREE_ENTRY_SEPARATOR ∉ n := (hvalid (n, k) (by simp)).2
    have hflat : flattenEntries ((n, k) :: tl) =
        keyBytes k ++ (n ++ TREE_ENTRY_SEPARATOR :: flattenEntries tl) := by
      simp [flattenEntries]
    rw [readEntriesAux]
    rw [hflat] at *
    have hne : (keyBytes k ++ (n ++ TREE_ENTRY_SEPARATOR :: flattenEntries tl)).isEmpty = false := by
      have h20 := keyBytes_length k
      cases hk : keyBytes k with
      | nil => rw [hk] at h20; simp at h20
      | cons a tll => simp
    rw [hne]
    simp only [Bool.false_eq_true, if_false]
    have hdrop : (keyBytes k ++ (n ++ TREE_ENTRY_SEPARATOR :: flattenEntries tl)).drop 20 =
        n ++ TREE_ENTRY_SEPARATOR :: flattenEntries tl := by
      have := keyBytes_length k
      rw [← this, List.drop_left]
    have hmem : TREE_ENTRY_SEPARATOR ∈ n ++ TREE_ENTRY_SEPARATOR :: flattenEntries tl := by
      simp
    have hname : (n ++ TREE_ENTRY_SEPARATOR :: flattenEntries tl).takeWhile
        (· ≠ TREE_ENTRY_SEPARATOR) = n :=
      takeWhile_ne_append (fun x hx => by
        intro hcontra
        exact hnosep (hcontra ▸ hx))
    have hrem : (n ++ TREE_ENTRY_SEPARATOR :: flattenEntries tl).drop (n.length + 1) =
        flattenEntries tl := by
      have : n ++ TREE_ENTRY_SEPARATOR :: flattenEntries tl =
          (n ++ [TREE_ENTRY_SEPARATOR]) ++ flattenEntries tl := by simp
      rw [this]
      have hlen : (n ++ [TREE_ENTRY_SEPARATOR]).length = n.length + 1 := by simp
      rw [← hlen, List.drop_left]
    simp only [keyOfStream_keyBytes, hdrop, if_pos hmem, hname, hrem, hv, if_true]
    have hgt : ∀ e ∈ t0.entries, e.1 < n := by
      rw [sortedNames, List.pairwise_append] at hsorted
      intro e he
      exact hsorted.2.2 e he (n, k) (by simp)
    have hins : t0.insert n k = ⟨t0.entries ++ [(n, k)]⟩ := by
      rw [Tree.insert, insertEntry_append_of_gt hgt]
    rw [hins]
    have happ : (t0.entries ++ [(n, k)]) ++ tl = t0.entries ++ (n, k) :: tl := by simp
    have := ih ⟨t0.entries ++ [(n, k)]⟩
      (fun e he => hvalid e (by simp [he]))
      (by rw [happ]; exact hsorted)
    rw [this, happ]

/-- Claim C6: for every `Tree` (a sorted map, as every `BTreeMap`-backed
tree is) whose entry names are non-empty valid UTF-8 and contain neither
the separator `0x0A` nor `0x00`, serializing with `write_content` and
parsing the bytes back with `read_content` yields the original tree. -/
theorem tree_write_read_roundtrip (t : Tree)
    (hsorted : sortedNames t.entries)
    (hnames : ∀ e ∈ t.entries, e.1 ≠ [] ∧ utf8Valid e.1 = true ∧
      TREE_ENTRY_SEPARATOR ∉ e.1 ∧ (0 : Byte) ∉ e.1) :
    ∃ bs, t.write_content = some bs ∧ Tree.read_content bs = .ok t := by
  refine ⟨flattenEntries t.entries, ?_, ?_⟩
  · exact writeEntries_eq_flatten (fun e he => (hnames e he).2.1)
  · rw [Tree.read_content]
    have h := readEntriesAux_flatten t.entries Tree.new
      (fun e he => ⟨(hnames e he).2.1, (hnames e he).2.2.1⟩)
      (by simpa [Tree.new] using hsorted)
    simpa [Tree.new] using h

/-- Witness for C6 at a concrete two-entry tree. -/
theorem tree_write_read_roundtrip_witness :
    ∃ bs, (Tree.ofInserts [([98], ObjectKey.zero), ([97], ObjectKey.zero)]).write_content
        = some bs ∧
      Tree.read_content bs =
        .ok (Tree.ofInserts [([98], ObjectKey.zero), ([97], ObjectKey.zero)]) :=
  tree_write_read_roundtrip _ (by decide) (by decide)

theorem writeEntries_none_of_invalid {l : List (Name × ObjectKey)}
    (h : ∃ e ∈ l, ¬ utf8Valid e.1 = true) :
    writeEntries l = none := by
  induction l with
  | nil => simp at h
  | cons hd tl ih =>
    obtain ⟨e, he, hbad⟩ := h
    obtain ⟨n, k⟩ := hd
    rcases List.mem_cons.mp he with he | he
    · subst he
      simp [writeEntries, hbad]
    · by_cases hv : utf8Valid n = true
      · simp [writeEntries, hv, ih ⟨e, he, hbad⟩]
      · simp [writeEntries, hv]

/-- Claim C10: `Tree::write_content` converts each name with
`to_str().unwrap()`, so it panics (modelled as `none`) for any tree with a
name that is not valid UTF-8, rather than returning an error. -/
theorem tree_write_content_panics_on_nonUtf8 (t : Tree)
    (h : ∃ e ∈ t.entries, ¬ utf8Valid e.1 = true) :
    t.write_content = none :=
  writeEntries_none_of_invalid h

/-- Witness for C10: a tree with the single invalid name `[0xFF]`. -/
theorem tree_write_content_panics_on_nonUtf8_witness :
    (Tree.new.insert [255] ObjectKey.zero).write_content = none :=
  tree_write_content_panics_on_nonUtf8 _ (by decide)

/-! ## Stat cache (`cache.rs`) -/

/-- `ObjectSize` (a `u64` in the source). -/
abbrev ObjectSize := Nat

/-- `encodable::SystemTime`: seconds since the epoch plus nanoseconds. -/
structure SysTime where
  secs : Int
  nanos : Nat
deriving DecidableEq, Repr

/-- `FileStats` (`cache.rs`): the subset of file metadata used to decide
whether a file has been modified. -/
structure FileStats where
  size : ObjectSize
  mtime : SysTime
deriving DecidableEq, Repr

/-- `CacheStatus` (`cache.rs`). -/
inductive CacheStatus where
  | NotCached (size : ObjectSize)
  | Modified (size : ObjectSize)
  | Cached (hash : ObjectKey)
deriving DecidableEq, Repr

/-- `CacheEntry` (`cache.rs`): data stored in the cache for each file. -/
structure CacheEntry where
  filestats : FileStats
  hash : ObjectKey
deriving DecidableEq, Repr

/-- `HashCache` (`cache.rs`): a `HashMap` from file name to `CacheEntry`,
modelled as an association list looked up by key. -/
structure HashCache where
  map : List (Name × CacheEntry)
deriving DecidableEq, Repr

/-- `HashCache::get`. -/
def HashCache.get (c : HashCache) (p : Name) : Option CacheEntry :=
  c.map.lookup p

/-- `HashCache::check` (`cache.rs`): compare the entry's recorded stats
against the file's current stats. -/
def HashCache.check (c : HashCache) (p : Name) (stats : FileStats) : CacheStatus :=
  match c.get p with
  | some entry =>
    if entry.filestats = stats then CacheStatus.Cached entry.hash
    else CacheStatus.Modified stats.size
  | none => CacheStatus.NotCached stats.size

/-- `HashCache::insert_entry` (`cache.rs`): upsert of a cache entry. -/
def HashCache.insert_entry (c : HashCache) (p : Name) (stats : FileStats)
    (h : ObjectKey) : HashCache :=
  ⟨(p, CacheEntry.mk stats h) :: c.map.filter (fun e => ¬ e.1 = p)⟩

theorem HashCache.get_insert_entry (c : HashCache) (p : Name)
    (stats : FileStats) (h : ObjectKey) :
    (c.insert_entry p stats h).get p = some (CacheEntry.mk stats h) := by
  simp [HashCache.insert_entry, HashCache.get, List.lookup]

/-- Claim C4: the stat-cache check returns `NotCached` with the file's size
when the file has no cache entry; `Modified` with the file's size when an
entry exists whose recorded `(size, mtime)` differ from the current stats;
and `Cached` with the recorded hash when an entry exists whose
`(size, mtime)` equal the current stats. -/
theorem hash_cache_check_cases (c : HashCache) (p : Name) (stats : FileStats) :
    (c.get p = none → c.check p stats = CacheStatus.NotCached stats.size) ∧
    (∀ e, c.get p = some e → e.filestats ≠ stats →
      c.check p stats = CacheStatus.Modified stats.size) ∧
    (∀ e, c.get p = some e → e.filestats = stats →
      c.check p stats = CacheStatus.Cached e.hash) := by
  refine ⟨?_, ?_, ?_⟩
  · intro h
    simp [HashCache.check, h]
  · intro e he hne
    simp [HashCache.check, he, hne]
  · intro e he heq
    simp [HashCache.check, he, heq]

/-- Witness for C4: the three cases at concrete caches and stats. -/
theorem hash_cache_check_cases_witness :
    (HashCache.mk []).check [97] (FileStats.mk 3 (SysTime.mk 5 0)) =
        CacheStatus.NotCached 3 ∧
    (HashCache.mk [([97], CacheEntry.mk (FileStats.mk 4 (SysTime.mk 5 0)) ObjectKey.zero)]).check
        [97] (FileStats.mk 3 (SysTime.mk 5 0)) = CacheStatus.Modified 3 ∧
    (HashCache.mk [([97], CacheEntry.mk (FileStats.mk 3 (SysTime.mk 5 0)) ObjectKey.zero)]).check
        [97] (FileStats.mk 3 (SysTime.mk 5 0)) = CacheStatus.Cached ObjectKey.zero := by
  refine ⟨?_, ?_, ?_⟩
  · exact (hash_cache_check_cases _ _ _).1 (by decide)
  · exact (hash_cache_check_cases _ _ _).2.1
      (CacheEntry.mk (FileStats.mk 4 (SysTime.mk 5 0)) ObjectKey.zero) (by decide) (by decide)
  · exact (hash_cache_check_cases _ _ _).2.2
      (CacheEntry.mk (FileStats.mk 3 (SysTime.mk 5 0)) ObjectKey.zero) (by decide) (by decide)

/-! ## Status lattice of the dual walk (`fs_transfer.rs`) -/

/-- `Status` (from the status module): per-path status in a `HashPlan`. -/
inductive Status where
  | Add
  | Ignored
  | Untracked
  | Unchanged
  | Modified
  | MaybeModified
  | Offline
deriving DecidableEq, Repr

/-- Modelled from the spec: `Status::is_included` (the status module is
absent from `src/`); a path is included in a plan unless it is ignored
("a directory is descended only if its status is included (non-ignored)"). -/
def Status.is_included : Status → Bool
  | .Ignored => false
  | _ => true

/-- The fields of a `FileWalkNode` that the compare walk reads: cached hash
(if any) and ignore flag. -/
structure FileNodeInfo where
  hash : Option ObjectKey
  ignored : Bool
deriving DecidableEq, Repr

/-- `ObjectWalkNode` (object store walk node): an object's hash and type. -/
structure ObjectWalkNode where
  hash : ObjectKey
  otype : ObjectType
deriving DecidableEq, Repr

/-- `FsObjComparePlanBuilder::status` (`fs_transfer.rs`): the status of one
compare node of the dual (filesystem, previous-commit tree) walk.  `none`
models the `unreachable!()` arm for a node with neither side. -/
def comparePlanStatus (node : Option FileNodeInfo × Option ObjectWalkNode) :
    Option Status :=
  let fsInfo : Bool × Option ObjectKey × Bool :=
    match node.1 with
    | some p => (true, p.hash, p.ignored)
    | none => (false, none, true)
  let objInfo : Bool × Option ObjectKey :=
    match node.2 with
    | some o => (true, some o.hash)
    | none => (false, none)
  match fsInfo.1, objInfo.1, fsInfo.2.1, objInfo.2 with
  | true, true, some a, some b =>
    if a = b then some Status.Unchanged else some Status.Modified
  | true, true, _, _ => some Status.MaybeModified
  | true, false, _, _ =>
    if fsInfo.2.2 then some Status.Ignored else some Status.Untracked
  | false, true, _, _ => some Status.Offline
  | false, false, _, _ => none

/-- Claim C2: the compare status is exactly: `Unchanged` for two equal known
hashes; `Modified` for two known unequal hashes; `MaybeModified` when both
sides exist but the filesystem hash is unknown; `Ignored` / `Untracked`
when only the filesystem side exists, by ignore flag; `Offline` when only
the object side exists. -/
theorem compare_plan_status_cases :
    (∀ (f : FileNodeInfo) (o : ObjectWalkNode) (a : ObjectKey),
      f.hash = some a → a = o.hash →
      comparePlanStatus (some f, some o) = some Status.Unchanged) ∧
    (∀ (f : FileNodeInfo) (o : ObjectWalkNode) (a : ObjectKey),
      f.hash = some a → a ≠ o.hash →
      comparePlanStatus (some f, some o) = some Status.Modified) ∧
    (∀ (f : FileNodeInfo) (o : ObjectWalkNode),
      f.hash = none →
      comparePlanStatus (some f, some o) = some Status.MaybeModified) ∧
    (∀ (f : FileNodeInfo),
      f.ignored = true →
      comparePlanStatus (some f, none) = some Status.Ignored) ∧
    (∀ (f : FileNodeInfo),
      f.ignored = false →
      comparePlanStatus (some f, none) = some Status.Untracked) ∧
    (∀ (o : ObjectWalkNode),
      comparePlanStatus (none, some o) = some Status.Offline) := by
  refine ⟨?_, ?_, ?_, ?_, ?_, ?_⟩
  · intro f o a hf hao
    simp [comparePlanStatus, hf, hao]
  · intro f o a hf hao
    simp [comparePlanStatus, hf, hao]
  · intro f o hf
    simp [comparePlanStatus, hf]
  · intro f hf
    simp [comparePlanStatus, hf]
  · intro f hf
    simp [comparePlanStatus, hf]
  · intro o
    simp [comparePlanStatus]

/-- Witness for C2: all six cases at concrete nodes. -/
theorem compare_plan_status_cases_witness :
    comparePlanStatus (some (FileNodeInfo.mk (some ObjectKey.zero) false),
        some (ObjectWalkNode.mk ObjectKey.zero ObjectType.blob)) =
      some Status.Unchanged ∧
    comparePlanStatus (some (FileNodeInfo.mk (some ObjectKey.zero) false),
        some (ObjectWalkNode.mk ⟨1, by norm_num [KEYSPACE]⟩ ObjectType.blob)) =
      some Status.Modified ∧
    comparePlanStatus (some (FileNodeInfo.mk none false),
        some (ObjectWalkNode.mk ObjectKey.zero ObjectType.blob)) =
      some Status.MaybeModified ∧
    comparePlanStatus (some (FileNodeInfo.mk none true), none) =
      some Status.Ignored ∧
    comparePlanStatus (some (FileNodeInfo.mk none false), none) =
      some Status.Untracked ∧
    comparePlanStatus (none, some (ObjectWalkNode.mk ObjectKey.zero ObjectType.blob)) =
      some Status.Offline := by
  refine ⟨?_, ?_, ?_, ?_, ?_, ?_⟩
  · exact compare_plan_status_cases.1 _ _ ObjectKey.zero rfl (by decide)
  · exact compare_plan_status_cases.2.1 _ _ ObjectKey.zero rfl (by decide)
  · exact compare_plan_status_cases.2.2.1 _ _ rfl
  · exact compare_plan_status_cases.2.2.2.1 _ rfl
  · exact compare_plan_status_cases.2.2.2.2.1 _ rfl
  · exact compare_plan_status_cases.2.2.2.2.2 _

/-! ## DAG objects and the object store log -/

/-- `ChunkRecord`: one chunk of a `ChunkedBlob` (offset, size, hash). -/
structure ChunkRecord where
  offset : Nat
  size : Nat
  hash : ObjectKey
deriving DecidableEq, Repr

/-- `ChunkedBlob`: the index object for a chunked file. -/
structure ChunkedBlob where
  total_size : Nat
  chunks : List ChunkRecord
deriving DecidableEq, Repr

/-- Modelled from the spec: `ChunkedBlob::new` (empty index). -/
def ChunkedBlob.new : ChunkedBlob := ⟨0, []⟩

/-- Modelled from the spec: `ChunkedBlob::add_chunk(size, hash)` appends a
record at offset `total_size` and grows `total_size` by `size` (offsets
start at 0 and increase by each chunk's size). -/
def ChunkedBlob.add_chunk (cb : ChunkedBlob) (size : Nat) (h : ObjectKey) :
    ChunkedBlob :=
  ⟨cb.total_size + size, cb.chunks ++ [ChunkRecord.mk cb.total_size size h]⟩

/-- `Commit`: tree hash, parent hashes, message (as its UTF-8 bytes). -/
structure CommitObj where
  tree : ObjectKey
  parents : List ObjectKey
  message : List Byte
deriving DecidableEq, Repr

/-- The four DAG object variants. -/
inductive DagObject where
  | blob (b : Blob)
  | chunkedBlob (cb : ChunkedBlob)
  | tree (t : Tree)
  | commitObj (c : CommitObj)
deriving DecidableEq, Repr

/-- A lowercase hex digit character. -/
def hexDigit (d : Nat) : Byte := if d < 10 then 48 + d else 87 + d

/-- The 40 lowercase hex characters of a hash. -/
def keyHex (k : ObjectKey) : List Byte :=
  (keyBytes k).foldr (fun b acc => hexDigit (b / 16) :: hexDigit (b % 16) :: acc) []

/-- Modelled from the spec: `ChunkedBlob` content encoding —
`total_size (u64 BE), n (u32 BE)`, then `n` records of
`(offset u64 BE, size u64 BE, hash 20 bytes)`. -/
def ChunkedBlob.content_bytes (cb : ChunkedBlob) : List Byte :=
  beBytes 8 cb.total_size ++ beBytes 4 cb.chunks.length ++
    cb.chunks.foldr
      (fun r acc => beBytes 8 r.offset ++ beBytes 8 r.size ++ keyBytes r.hash ++ acc) []

/-- Modelled from the spec: `Commit` content encoding —
`tree <hex>\n`, then `parent <hex>\n` per parent, a blank line, then the
raw message bytes. -/
def CommitObj.content_bytes (c : CommitObj) : List Byte :=
  [116, 114, 101, 101, 32] ++ keyHex c.tree ++ [10] ++
    c.parents.foldr
      (fun p acc => [112, 97, 114, 101, 110, 116, 32] ++ keyHex p ++ [10] ++ acc) [] ++
    [10] ++ c.message

/-- Serialize an object as written by `write_to`: header then content.
`none` propagates the tree-name panic of `Tree::write_content`. -/
def DagObject.serialize : DagObject → Option (List Byte)
  | .blob b =>
    some ((ObjectHeader.mk ObjectType.blob b.content.length).bytes ++ b.content)
  | .chunkedBlob cb =>
    some ((ObjectHeader.mk ObjectType.chunkedBlob cb.content_bytes.length).bytes ++
      cb.content_bytes)
  | .tree t =>
    (t.write_content).map
      (fun bs => (ObjectHeader.mk ObjectType.tree bs.length).bytes ++ bs)
  | .commitObj c =>
    some ((ObjectHeader.mk ObjectType.commit c.content_bytes.length).bytes ++
      c.content_bytes)

/-- The hash under which an object is stored: the hash of its
`header || content` stream.  (The `getD` default is only reachable on the
tree-name panic path, on which the source program dies.) -/
def dagHash (o : DagObject) : ObjectKey := hashBytes ((o.serialize).getD [])

/-- The object store, modelled as the log of objects passed to
`store_object` (on disk each write is idempotent per hash; the log records
the store calls an operation performs, in order). -/
structure StoreLog where
  objs : List DagObject
deriving DecidableEq, Repr

/-- `store_object`: serialize through a `HashWriter` into the store and
return the hash. -/
def StoreLog.store_object (s : StoreLog) (o : DagObject) : StoreLog × ObjectKey :=
  (⟨s.objs ++ [o]⟩, dagHash o)

/-! ## File ingestion: chunking and storing (`repo.rs`, `file_store.rs`) -/

/-- The loop body of `Repo::store_file`'s multi-chunk case: store the chunk
as a `Blob`, then `add_chunk(blob.size(), key)` onto the index. -/
def storeChunkStep (acc : StoreLog × ChunkedBlob) (chunk : List Byte) :
    StoreLog × ChunkedBlob :=
  let r := acc.1.store_object (DagObject.blob (Blob.mk chunk))
  (r.1, acc.2.add_chunk (Blob.mk chunk).size r.2)

/-- `Repo::store_file` (`repo.rs`), as a function of the chunk sequence the
`ChunkReader` yields for the file's byte stream (`rollinghash.rs` is absent
from `src/`: an empty stream yields no chunks, a stream that fits in one
chunk yields one).  The source pattern-matches on the first two chunks:
none → store one empty `Blob`; one → store that `Blob`; two or more →
store a `Blob` per chunk, then the summarizing `ChunkedBlob`. -/
def store_file (s : StoreLog) (chunks : List (List Byte)) :
    StoreLog × ObjectKey :=
  match chunks with
  | [] => s.store_object (DagObject.blob (Blob.mk []))
  | [c] => s.store_object (DagObject.blob (Blob.mk c))
  | c1 :: c2 :: rest =>
    let folded := (c1 :: c2 :: rest).foldl storeChunkStep (s, ChunkedBlob.new)
    folded.1.store_object (DagObject.chunkedBlob folded.2)

/-- The `ChunkedBlob` summarizing a chunk sequence (each record carries the
chunk's size and its blob's hash). -/
def mkChunkedBlob (chunks : List (List Byte)) : ChunkedBlob :=
  chunks.foldl
    (fun cb c => cb.add_chunk c.length (dagHash (DagObject.blob (Blob.mk c))))
    ChunkedBlob.new

/-- Modelled from the spec: the output contract of `read_file_objects`
(`rolling_hash.rs` is absent from `src/`), as a function of the chunk
sequence: an empty stream gives exactly one empty `Blob`; a one-chunk
stream gives one `Blob`; otherwise N `Blob`s followed by one `ChunkedBlob`
summarizing them. -/
def read_file_objects (chunks : List (List Byte)) : List DagObject :=
  match chunks with
  | [] => [DagObject.blob (Blob.mk [])]
  | [c] => [DagObject.blob (Blob.mk c)]
  | cs => cs.map (fun c => DagObject.blob (Blob.mk c)) ++
      [DagObject.chunkedBlob (mkChunkedBlob cs)]

/-- The cached-hash early-return check of the `file_store.rs` generation
(`Ok(Some(hash))` iff the cache entry matches the file's current stats),
modelled via `HashCache::check`. -/
def cacheHashOf (c : HashCache) (p : Name) (stats : FileStats) :
    Option ObjectKey :=
  match c.check p stats with
  | CacheStatus.Cached h => some h
  | _ => none

/-- The loop body of `FileStore::hash_file`: store the object and remember
its hash as `last_hash`. -/
def storeObjStep (acc : StoreLog × Option ObjectKey) (o : DagObject) :
    StoreLog × Option ObjectKey :=
  let r := acc.1.store_object o
  (r.1, some r.2)

/-- `FileStore::hash_file` (`file_store.rs`), as a function of the chunk
sequence: early-return a cached hash; otherwise store every object of
`read_file_objects`, cache and return the last stored hash (the
`expect`'s default is unreachable: the iterator always emits objects). -/
def hash_file (cache : HashCache) (p : Name) (stats : FileStats)
    (s : StoreLog) (chunks : List (List Byte)) :
    HashCache × StoreLog × ObjectKey :=
  match cacheHashOf cache p stats with
  | some h => (cache, s, h)
  | none =>
    let folded := (read_file_objects chunks).foldl storeObjStep (s, none)
    let last_hash := folded.2.getD ObjectKey.zero
    (cache.insert_entry p stats last_hash, folded.1, last_hash)

theorem foldl_storeChunkStep (cs : List (List Byte)) (s : StoreLog)
    (cb : ChunkedBlob) :
    cs.foldl storeChunkStep (s, cb) =
      (⟨s.objs ++ cs.map (fun c => DagObject.blob (Blob.mk c))⟩,
       cs.foldl
        (fun cb c => cb.add_chunk c.length (dagHash (DagObject.blob (Blob.mk c)))) cb) := by
  induction cs generalizing s cb with
  | nil => simp
  | cons c cs ih =>
    simp only [List.foldl_cons, List.map_cons]
    rw [storeChunkStep]
    simp only [StoreLog.store_object]
    rw [ih]
    simp [Blob.size]

theorem foldl_storeObjStep (objs : List DagObject) (s : StoreLog)
    (prev : Option ObjectKey) :
    objs.foldl storeObjStep (s, prev) =
      (⟨s.objs ++ objs⟩, objs.foldl (fun _ o => some (dagHash o)) prev) := by
  induction objs generalizing s prev with
  | nil => simp
  | cons o objs ih =>
    simp only [List.foldl_cons]
    rw [storeObjStep]
    simp only [StoreLog.store_object]
    rw [ih]
    simp

/-- Claim C1: the shape of a file ingest.  For `Repo::store_file` on the
chunk sequence of the input stream: no chunks (empty stream) → exactly one
empty `Blob` stored and its hash returned; one chunk → exactly one `Blob`
stored and its hash returned; otherwise one `Blob` per chunk followed by
one summarizing `ChunkedBlob`, with the returned hash the hash of that
last-stored `ChunkedBlob`.  `FileStore::hash_file` on a cache miss stores
exactly the `read_file_objects` sequence and returns the hash of the last
stored object. -/
theorem store_file_ingest_shape (s : StoreLog) (chunks : List (List Byte))
    (cache : HashCache) (p : Name) (stats : FileStats) :
    (chunks = [] →
      store_file s chunks =
        (⟨s.objs ++ [DagObject.blob (Blob.mk [])]⟩,
         dagHash (DagObject.blob (Blob.mk [])))) ∧
    (∀ c, chunks = [c] →
      store_file s chunks =
        (⟨s.objs ++ [DagObject.blob (Blob.mk c)]⟩,
         dagHash (DagObject.blob (Blob.mk c)))) ∧
    (2 ≤ chunks.length →
      store_file s chunks =
        (⟨s.objs ++ chunks.map (fun c => DagObject.blob (Blob.mk c)) ++
            [DagObject.chunkedBlob (mkChunkedBlob chunks)]⟩,
         dagHash (DagObject.chunkedBlob (mkChunkedBlob chunks)))) ∧
    (cacheHashOf cache p stats = none →
      (hash_file cache p stats s chunks).2.1 = ⟨s.objs ++ read_file_objects chunks⟩ ∧
      (read_file_objects chunks).getLast?.map dagHash =
        some (hash_file cache p stats s chunks).2.2 ∧
      (hash_file cache p stats s chunks).1 =
        cache.insert_entry p stats (hash_file cache p stats s chunks).2.2) := by
  refine ⟨?_, ?_, ?_, ?_⟩
  · intro h
    subst h
    rfl
  · intro c h
    subst h
    rfl
  · intro hlen
    match chunks with
    | [] => simp at hlen
    | [c] => simp at hlen
    | c1 :: c2 :: rest =>
      rw [store_file]
      rw [foldl_storeChunkStep]
      simp only [StoreLog.store_object, Prod.mk.injEq, StoreLog.mk.injEq]
      constructor
      · simp [mkChunkedBlob, Blob.size]
      · simp [mkChunkedBlob, Blob.size]
  · intro hmiss
    rw [hash_file, hmiss]
    rw [foldl_storeObjStep]
    refine ⟨rfl, ?_, rfl⟩
    match chunks with
    | [] => rfl
    | [c] => rfl
    | c1 :: c2 :: rest =>
      simp only [read_file_objects, List.foldl_append, List.foldl_cons,
        List.foldl_nil, List.getLast?_concat, Option.getD_some]
      simp

/-- Witness for C1: the three store shapes and the cache-miss path at
concrete chunk sequences. -/
theorem store_file_ingest_shape_witness :
    (store_file (StoreLog.mk []) [] =
      (⟨[DagObject.blob (Blob.mk [])]⟩, dagHash (DagObject.blob (Blob.mk [])))) ∧
    (store_file (StoreLog.mk []) [[7]] =
      (⟨[DagObject.blob (Blob.mk [7])]⟩, dagHash (DagObject.blob (Blob.mk [7])))) ∧
    (store_file (StoreLog.mk []) [[7], [8]] =
      (⟨[DagObject.blob (Blob.mk [7]), DagObject.blob (Blob.mk [8]),
         DagObject.chunkedBlob (mkChunkedBlob [[7], [8]])]⟩,
       dagHash (DagObject.chunkedBlob (mkChunkedBlob [[7], [8]])))) ∧
    ((hash_file (HashCache.mk []) [97] (FileStats.mk 2 (SysTime.mk 0 0))
        (StoreLog.mk []) [[7], [8]]).2.1 =
      ⟨read_file_objects [[7], [8]]⟩ ∧
     (read_file_objects [[7], [8]]).getLast?.map dagHash =
      some (hash_file (HashCache.mk []) [97] (FileStats.mk 2 (SysTime.mk 0 0))
        (StoreLog.mk []) [[7], [8]]).2.2 ∧
     (hash_file (HashCache.mk []) [97] (FileStats.mk 2 (SysTime.mk 0 0))
        (StoreLog.mk []) [[7], [8]]).1 =
      (HashCache.mk []).insert_entry [97] (FileStats.mk 2 (SysTime.mk 0 0))
        (hash_file (HashCache.mk []) [97] (FileStats.mk 2 (SysTime.mk 0 0))
          (StoreLog.mk []) [[7], [8]]).2.2) := by
  refine ⟨?_, ?_, ?_, ?_⟩
  · have h := (store_file_ingest_shape (StoreLog.mk []) [] (HashCache.mk [])
      [] (FileStats.mk 0 (SysTime.mk 0 0))).1 rfl
    simpa using h
  · have h := (store_file_ingest_shape (StoreLog.mk []) [[7]] (HashCache.mk [])
      [] (FileStats.mk 0 (SysTime.mk 0 0))).2.1 [7] rfl
    simpa using h
  · have h := (store_file_ingest_shape (StoreLog.mk []) [[7], [8]] (HashCache.mk [])
      [] (FileStats.mk 0 (SysTime.mk 0 0))).2.2.1 (by decide)
    simpa using h
  · have h := (store_file_ingest_shape (StoreLog.mk []) [[7], [8]] (HashCache.mk [])
      [97] (FileStats.mk 2 (SysTime.mk 0 0))).2.2.2 (by decide)
    simpa using h

/-! ## Commit (`work_dir.rs`) -/

/-- `WorkDirState` (`work_dir.rs`): parent commits and current branch. -/
structure WorkDirState where
  parents : List ObjectKey
  branch : Option String
deriving DecidableEq, Repr

/-- Modelled from the spec: `update_ref(name, hash)` (trivial file I/O on
`refs/`, in the object store module absent from `src/`): set the named ref
to the hash. -/
def updateRef (refs : List (String × ObjectKey)) (name : String)
    (h : ObjectKey) : List (String × ObjectKey) :=
  (name, h) :: refs.filter (fun e => ¬ e.1 = name)

/-- The state a `WorkDir::commit` call touches: the in-memory
`WorkDirState`, its last persisted copy (written by `DiskBacked::flush`),
the refs, and the object store log. -/
structure WorkDirM where
  state : WorkDirState
  persisted : WorkDirState
  refs : List (String × ObjectKey)
  store : StoreLog
deriving DecidableEq, Repr

/-- `WorkDir::commit` (`work_dir.rs`), with the result of `hash_path` on
the working-directory root passed in as `tree_hash` (the ingest walk
itself is modelled separately): build a `Commit` from the state's current
parents and the message, store it, set `parents := [hash]`, update the
branch ref when a branch is set, flush the state, and return
`(branch, hash)`. -/
def WorkDir.commit (wd : WorkDirM) (tree_hash : ObjectKey)
    (message : List Byte) : WorkDirM × Option String × ObjectKey :=
  let c := CommitObj.mk tree_hash wd.state.parents message
  let r := wd.store.store_object (DagObject.commitObj c)
  let st1 : WorkDirState := ⟨[r.2], wd.state.branch⟩
  let refs1 := match wd.state.branch with
    | some b => updateRef wd.refs b r.2
    | none => wd.refs
  (⟨st1, st1, refs1, r.1⟩, st1.branch, r.2)

/-- Claim C8: a successful `commit(message)` stores a `Commit` whose tree
is the working-directory root hash, whose parents are the state's previous
parent list, and whose message is the given message; the returned hash is
that commit's hash; afterwards the parent list is exactly `[commit_hash]`,
the branch ref is set to `commit_hash` when a branch is set (and no ref
changes otherwise), the branch itself is unchanged, and the state is
persisted. -/
theorem work_dir_commit_effects (wd : WorkDirM) (tree_hash : ObjectKey)
    (message : List Byte) :
    (WorkDir.commit wd tree_hash message).1.store =
      ⟨wd.store.objs ++
        [DagObject.commitObj (CommitObj.mk tree_hash wd.state.parents message)]⟩ ∧
    (WorkDir.commit wd tree_hash message).2.2 =
      dagHash (DagObject.commitObj (CommitObj.mk tree_hash wd.state.parents message)) ∧
    (WorkDir.commit wd tree_hash message).1.state.parents =
      [(WorkDir.commit wd tree_hash message).2.2] ∧
    (∀ b, wd.state.branch = some b →
      (WorkDir.commit wd tree_hash message).1.refs =
        updateRef wd.refs b (WorkDir.commit wd tree_hash message).2.2) ∧
    (wd.state.branch = none →
      (WorkDir.commit wd tree_hash message).1.refs = wd.refs) ∧
    (WorkDir.commit wd tree_hash message).1.persisted =
      (WorkDir.commit wd tree_hash message).1.state ∧
    (WorkDir.commit wd tree_hash message).1.state.branch = wd.state.branch ∧
    (WorkDir.commit wd tree_hash message).2.1 = wd.state.branch := by
  refine ⟨rfl, rfl, rfl, ?_, ?_, rfl, rfl, rfl⟩
  · intro b hb
    simp [WorkDir.commit, hb, StoreLog.store_object]
  · intro hb
    simp [WorkDir.commit, hb, StoreLog.store_object]

/-- Witness for C8: a commit on a one-parent state with a branch set, and
one on a detached (branchless) state. -/
theorem work_dir_commit_effects_witness :
    ((WorkDir.commit
        (WorkDirM.mk (WorkDirState.mk [ObjectKey.zero] (some "master"))
          (WorkDirState.mk [ObjectKey.zero] (some "master")) [] (StoreLog.mk []))
        ObjectKey.zero [104, 105]).1.refs =
      updateRef [] "master"
        (WorkDir.commit
          (WorkDirM.mk (WorkDirState.mk [ObjectKey.zero] (some "master"))
            (WorkDirState.mk [ObjectKey.zero] (some "master")) [] (StoreLog.mk []))
          ObjectKey.zero [104, 105]).2.2) ∧
    ((WorkDir.commit
        (WorkDirM.mk (WorkDirState.mk [] none)
          (WorkDirState.mk [] none) [] (StoreLog.mk []))
        ObjectKey.zero [104, 105]).1.refs = []) := by
  constructor
  · exact (work_dir_commit_effects _ _ _).2.2.2.1 "master" rfl
  · exact (work_dir_commit_effects _ _ _).2.2.2.2.1 rfl

/-! ## Extract (`file_store.rs` and `pipeline.rs`) -/

/-- What occupies a filesystem path: a file (content plus mtime) or a
directory (with its stat data). -/
inductive FsEntry where
  | file (content : List Byte) (mtime : SysTime)
  | dir (stats : FileStats)
deriving DecidableEq, Repr

/-- The stats `metadata()` reports for an entry. -/
def FsEntry.stats : FsEntry → FileStats
  | .file content mtime => FileStats.mk content.length mtime
  | .dir stats => stats

/-- A keyed read view of the object store. -/
abbrev ObjMap := List (ObjectKey × DagObject)

/-- `copy_blob_content` (`pipeline.rs` `copy_blob_content_open`): a `Blob`
streams its content; a `ChunkedBlob` opens each record's hash in order,
recursing; a missing object or any other object type is an error.  `fuel`
bounds the indirection depth (on disk the hash graph is finite and
acyclic). -/
def copy_blob_content (objs : ObjMap) : Nat → ObjectKey → Except Unit (List Byte)
  | 0, _ => .error ()
  | fuel + 1, h =>
    match objs.lookup h with
    | none => .error ()
    | some (DagObject.blob b) => .ok b.content
    | some (DagObject.chunkedBlob cb) =>
      cb.chunks.foldlM
        (fun acc r => (copy_blob_content objs fuel r.hash).map (fun c => acc ++ c)) []
    | some _ => .error ()

/-- `FileStore::extract_file` (`file_store.rs`): if the destination is a
file whose cached hash matches, do nothing; if it is a directory, remove
it recursively; then open the destination with write+create+truncate,
stream the blob content, flush, and prime the cache with the written
file's fresh stats and the hash.  `now` is the written file's mtime. -/
def extract_file (objs : ObjMap) (fuel : Nat) (cache : HashCache)
    (dest : Option FsEntry) (h : ObjectKey) (p : Name) (now : SysTime) :
    Except Unit (Option FsEntry × HashCache) :=
  let skip : Bool := match dest with
    | some (FsEntry.file content mtime) =>
      match cacheHashOf cache p (FsEntry.stats (FsEntry.file content mtime)) with
      | some c => c = h
      | none => false
    | _ => false
  if skip then .ok (dest, cache)
  else
    (copy_blob_content objs fuel h).map (fun content =>
      (some (FsEntry.file content now),
       cache.insert_entry p (FileStats.mk content.length now) h))

/-- Errors of `extract_file_open`. -/
inductive ExtractErr where
  | wouldClobberDirectory
  | copyFailed
deriving DecidableEq, Repr

/-- `ObjectFsTransfer::extract_file_open` (`pipeline.rs`): early-return
when the path exists and the cache reports `Cached` with the target hash
(`return_if_cache_matches!`); then bail with `WouldClobberDirectory` if
the path is a directory; otherwise open with write+create+truncate,
stream, flush, and cache. -/
def extract_file_open (objs : ObjMap) (fuel : Nat) (cache : HashCache)
    (dest : Option FsEntry) (h : ObjectKey) (p : Name) (now : SysTime) :
    Except ExtractErr (Option FsEntry × HashCache) :=
  let cache_match : Bool := match dest with
    | some e =>
      match cache.check p e.stats with
      | CacheStatus.Cached ch => ch = h
      | _ => false
    | none => false
  if cache_match then .ok (dest, cache)
  else if (match dest with | some (FsEntry.dir _) => true | _ => false) then
    .error ExtractErr.wouldClobberDirectory
  else
    match copy_blob_content objs fuel h with
    | .error _ => .error ExtractErr.copyFailed
    | .ok content =>
      .ok (some (FsEntry.file content now),
        cache.insert_entry p (FileStats.mk content.length now) h)

/-- Counterexample to C3 as stated: `extract_file_open` (`pipeline.rs`,
cited by the claim as part of the extract operation) does fail when the
destination is a directory.  Extracting a stored `Blob` onto a directory
returns `WouldClobberDirectory` instead of replacing the directory. -/
theorem extract_file_open_fails_on_directory_counterexample :
    extract_file_open
      [(dagHash (DagObject.blob (Blob.mk [49])), DagObject.blob (Blob.mk [49]))] 1
      (HashCache.mk [])
      (some (FsEntry.dir (FileStats.mk 0 (SysTime.mk 0 0))))
      (dagHash (DagObject.blob (Blob.mk [49]))) [97] (SysTime.mk 1 0) =
    Except.error ExtractErr.wouldClobberDirectory := rfl

/-- Claim C3 (amended): `FileStore::extract_file` on a directory
destination removes it, writes the destination file with the streamed blob
content, and primes the cache with the fresh stats and the hash, without
error; `ObjectFsTransfer::extract_file_open` instead fails with
`WouldClobberDirectory` whenever the destination is a directory (and the
cache does not already record the target hash for it). -/
theorem extract_on_directory_behaviour (objs : ObjMap) (fuel : Nat)
    (cache : HashCache) (st : FileStats) (h : ObjectKey) (p : Name)
    (now : SysTime) (content : List Byte) :
    (copy_blob_content objs fuel h = .ok content →
      extract_file objs fuel cache (some (FsEntry.dir st)) h p now =
        .ok (some (FsEntry.file content now),
          cache.insert_entry p (FileStats.mk content.length now) h)) ∧
    ((∀ ch, cache.check p st = CacheStatus.Cached ch → ch ≠ h) →
      extract_file_open objs fuel cache (some (FsEntry.dir st)) h p now =
        .error ExtractErr.wouldClobberDirectory) := by
  constructor
  · intro hcopy
    simp [extract_file, hcopy, Except.map]
  · intro hnc
    rw [extract_file_open]
    have hm : (match cache.check p (FsEntry.dir st).stats with
        | CacheStatus.Cached ch => decide (ch = h)
        | _ => false) = false := by
      match hc : cache.check p (FsEntry.dir st).stats with
      | CacheStatus.Cached ch =>
        simp only [decide_eq_false_iff_not]
        exact hnc ch (by simpa [FsEntry.stats] using hc)
      | CacheStatus.NotCached sz => rfl
      | CacheStatus.Modified sz => rfl
    simp [hm]

/-- Witness for the amended C3: extracting a one-byte blob over an existing
directory with an empty cache. -/
theorem extract_on_directory_behaviour_witness :
    (extract_file
        [(dagHash (DagObject.blob (Blob.mk [49])), DagObject.blob (Blob.mk [49]))] 1
        (HashCache.mk []) (some (FsEntry.dir (FileStats.mk 0 (SysTime.mk 0 0))))
        (dagHash (DagObject.blob (Blob.mk [49]))) [97] (SysTime.mk 1 0) =
      .ok (some (FsEntry.file [49] (SysTime.mk 1 0)),
        (HashCache.mk []).insert_entry [97] (FileStats.mk 1 (SysTime.mk 1 0))
          (dagHash (DagObject.blob (Blob.mk [49]))))) ∧
    (extract_file_open
        [(dagHash (DagObject.blob (Blob.mk [49])), DagObject.blob (Blob.mk [49]))] 1
        (HashCache.mk []) (some (FsEntry.dir (FileStats.mk 0 (SysTime.mk 0 0))))
        (dagHash (DagObject.blob (Blob.mk [49]))) [97] (SysTime.mk 1 0) =
      .error ExtractErr.wouldClobberDirectory) := by
  constructor
  · exact (extract_on_directory_behaviour _ _ _ _ _ _ _ _).1 rfl
  · exact (extract_on_directory_behaviour _ _ _ _ _ _ _ [49]).2
      (by intro ch hc; simp [HashCache.check, HashCache.get] at hc)

/-! ## The ingest walk and `hash_path` (`fs_transfer.rs`) -/

/-- A filesystem node as the ingest walk sees it: what
`FileStore::lookup_node` reads (kind, cached hash, ignore flag) plus, for
a file, the content that opening its path yields. -/
inductive FsNode where
  | file (ignored : Bool) (hash : Option ObjectKey) (content : List Byte)
  | dir (ignored : Bool) (children : List (Name × FsNode))

/-- `HashPlan` (status module): the transient plan tree of one ingest or
status operation.  The source node's `path` field is modelled by `content`,
the bytes that reading the path yields — which is all `hash_file` uses of
it. -/
inductive HashPlan where
  | node (status : Status) (isDir : Bool) (hash : Option ObjectKey)
      (content : List Byte) (size : Nat) (children : List (Name × HashPlan))

/-- `FsOnlyPlanBuilder::status` (`fs_transfer.rs`): `Ignored` for an
ignored node, `Add` otherwise. -/
def fsOnlyStatus (ignored : Bool) : Status :=
  if ignored then Status.Ignored else Status.Add

mutual

/-- Modelled from the spec: the generic walker (`walker.rs` is absent from
`src/`) driving `FsOnlyPlanBuilder` (`fs_transfer.rs`).  Depth-first; a
node is descended iff `should_descend` (a directory with included status);
a non-descended node yields `no_descend` (a childless plan node); a
descended one yields `post_descend` (the same node with the children's
results, children yielding `none` dropped).  A directory's cached hash and
stat size are those `lookup_node` reports for it (no cached hash; size
not used afterwards, modelled 0). -/
def fsWalk : FsNode → Option HashPlan
  | .file ig h content =>
    some (HashPlan.node (fsOnlyStatus ig) false h content content.length [])
  | .dir ig children =>
    if (fsOnlyStatus ig).is_included then
      some (HashPlan.node (fsOnlyStatus ig) true none [] 0 (fsWalkChildren children))
    else
      some (HashPlan.node (fsOnlyStatus ig) true none [] 0 [])

/-- The walker's child loop: visit each child, keep the `some` results. -/
def fsWalkChildren : List (Name × FsNode) → List (Name × HashPlan)
  | [] => []
  | (nm, c) :: rest =>
    match fsWalk c with
    | some p => (nm, p) :: fsWalkChildren rest
    | none => fsWalkChildren rest

end

/-- The miss path of `hash_file` inside the plan walk (a plan node with
`hash = none` is exactly a cache miss): store every emitted object and
return the last stored hash. -/
def hashFileMiss (s : StoreLog) (objs : List DagObject) : StoreLog × ObjectKey :=
  let folded := objs.foldl storeObjStep (s, none)
  (folded.1, folded.2.getD ObjectKey.zero)

mutual

/-- Modelled from the spec: the walker driving `HashAndStoreOp`
(`fs_transfer.rs`), threading the object store log.  An excluded node
yields `none`; an included leaf yields its known hash, or chunks, stores
and hashes the file (`chunker` stands for the absent `rolling_hash.rs`
boundary algorithm); an included directory collects its children's hashes
into a `Tree` and stores it — unless no child yielded a hash, in which
case it yields `none`. -/
def planWalk (chunker : List Byte → List (List Byte)) (s : StoreLog) :
    HashPlan → StoreLog × Option ObjectKey
  | .node status isDir hash content _size children =>
    if isDir && status.is_included then
      let r := planWalkChildren chunker s children
      if r.2.isEmpty then (r.1, none)
      else
        let tree := r.2.foldl (fun t e => t.insert e.1 e.2) Tree.new
        let st := r.1.store_object (DagObject.tree tree)
        (st.1, some st.2)
    else
      match status.is_included, hash with
      | false, _ => (s, none)
      | true, some h => (s, some h)
      | true, none =>
        let r := hashFileMiss s (read_file_objects (chunker content))
        (r.1, some r.2)

/-- The walker's child loop for the store walk, threading the log. -/
def planWalkChildren (chunker : List Byte → List (List Byte)) (s : StoreLog) :
    List (Name × HashPlan) → StoreLog × List (Name × ObjectKey)
  | [] => (s, [])
  | (nm, p) :: rest =>
    let r := planWalk chunker s p
    let rs := planWalkChildren chunker r.1 rest
    match r.2 with
    | some h => (rs.1, (nm, h) :: rs.2)
    | none => (rs.1, rs.2)

end

/-- The error of `hash_path` when a walk yields no root value
(`"Nothing to hash (all ignored?)"`). -/
inductive HashPathErr where
  | nothingToHash
deriving DecidableEq, Repr

/-- `FsTransfer::hash_path` (`fs_transfer.rs`): build the `HashPlan` by
walking the filesystem, fail if that walk yields no plan; walk the plan
with `HashAndStoreOp`, fail if it yields no hash; otherwise return the
root hash. -/
def hash_path (chunker : List Byte → List (List Byte)) (s : StoreLog)
    (root : FsNode) : StoreLog × Except HashPathErr ObjectKey :=
  match fsWalk root with
  | none => (s, .error HashPathErr.nothingToHash)
  | some plan =>
    let r := planWalk chunker s plan
    match r.2 with
    | none => (r.1, .error HashPathErr.nothingToHash)
    | some h => (r.1, .ok h)

/-- The ignore flag of the walk's root node. -/
def FsNode.rootIgnored : FsNode → Bool
  | .file ig _ _ => ig
  | .dir ig _ => ig

/-- Claim C9: `hash_path` returns an error, not an `ObjectKey`, whenever
the plan walk produces no root value; in particular for an ignored root
path (such as the object-store root itself, which the ignore list is
pre-seeded with). -/
theorem hash_path_error_on_empty_walk (chunker : List Byte → List (List Byte))
    (s : StoreLog) (root : FsNode) :
    (∀ plan, fsWalk root = some plan → (planWalk chunker s plan).2 = none →
      (hash_path chunker s root).2 = .error HashPathErr.nothingToHash) ∧
    (root.rootIgnored = true →
      (hash_path chunker s root).2 = .error HashPathErr.nothingToHash) := by
  constructor
  · intro plan hplan hnone
    rw [hash_path, hplan]
    simp only [hnone]
  · intro hig
    match root with
    | FsNode.file ig h content =>
      have hig' : ig = true := hig
      subst hig'
      rw [hash_path]
      simp [fsWalk, planWalk, fsOnlyStatus, Status.is_included]
    | FsNode.dir ig children =>
      have hig' : ig = true := hig
      subst hig'
      rw [hash_path]
      simp [fsWalk, planWalk, fsOnlyStatus, Status.is_included]

/-- Witness for C9: an ignored file as the root. -/
theorem hash_path_error_on_empty_walk_witness :
    (hash_path (fun c => [c]) (StoreLog.mk [])
      (FsNode.file true none [1, 2, 3])).2 = .error HashPathErr.nothingToHash :=
  (hash_path_error_on_empty_walk (fun c => [c]) (StoreLog.mk [])
    (FsNode.file true none [1, 2, 3])).2 rfl

end Proto
